import Mathlib

/-!
# Verification of the pngme chunk codec

Shallow embedding of the pngme repository (src/chunk_type.rs, src/chunk.rs and
the PNG container described by the specification) together with proofs about
the embedded operations.  Byte buffers are modelled as `List Nat` whose
elements are below 256, `u32` values as `Nat` with reduction modulo `2 ^ 32`
where the source truncates, and fallible operations return `Option`, `Except`
or a dedicated result type that also records a runtime panic.
-/

namespace Pngme

/-! ## ASCII classification, mirroring `u8::is_ascii_*` from the Rust core -/

/-- `b.is_ascii_uppercase()`: `A`–`Z`. -/
def isAsciiUppercase (b : Nat) : Bool := 65 ≤ b && b ≤ 90

/-- `b.is_ascii_lowercase()`: `a`–`z`. -/
def isAsciiLowercase (b : Nat) : Bool := 97 ≤ b && b ≤ 122

/-- `b.is_ascii_alphabetic()`: `A`–`Z` or `a`–`z`. -/
def isAsciiAlphabetic (b : Nat) : Bool := isAsciiUppercase b || isAsciiLowercase b

/-! ## Big-endian `u32` serialization (`u32::to_be_bytes` / `u32::from_be_bytes`) -/

/-- `u32::to_be_bytes`: the four big-endian bytes of a `u32` value. -/
def u32ToBe (n : Nat) : List Nat :=
  [n / 2 ^ 24 % 256, n / 2 ^ 16 % 256, n / 2 ^ 8 % 256, n % 256]

/-- `u32::from_be_bytes`: reassemble a `u32` from four big-endian bytes.
In the source the argument is a `[u8; 4]`, so the non-4-element case never
arises; it is mapped to `0`. -/
def u32FromBe (l : List Nat) : Nat :=
  match l with
  | [a, b, c, d] => a * 2 ^ 24 + b * 2 ^ 16 + c * 2 ^ 8 + d
  | _ => 0

/-! ## CRC-32/ISO-HDLC

`chunk.rs` computes `Crc::<u32>::new(&CRC_32_ISO_HDLC).checksum(bytes)` from
the external `crc` crate.  That algorithm (the standard PNG CRC) is the
reflected CRC-32 with polynomial `0xEDB88320`, initial value `0xFFFFFFFF` and
final xor `0xFFFFFFFF`; it is embedded here bit by bit.  The known test
vector of the repository (`crc32 ("RuSt" ++ secret message) = 2882656334`)
validates the embedding. -/

/-- The reflected CRC-32/ISO-HDLC polynomial. -/
def CRC32_POLY : Nat := 0xEDB88320

/-- One bit step of the reflected CRC-32 update. -/
def crcBitStep (s : Nat) : Nat :=
  if s % 2 = 1 then (s >>> 1) ^^^ CRC32_POLY else s >>> 1

/-- Absorb one input byte into the CRC state: xor it in, then run eight bit
steps. -/
def crcByteStep (s b : Nat) : Nat := crcBitStep^[8] (s ^^^ b)

/-- CRC-32/ISO-HDLC of a byte sequence. -/
def crc32 (l : List Nat) : Nat := l.foldl crcByteStep 0xFFFFFFFF ^^^ 0xFFFFFFFF

/-! ## ChunkType (src/chunk_type.rs) -/

/-- `ChunkType`, a 4-byte identifier (`struct ChunkType([u8; 4])`). -/
structure ChunkType where
  b0 : Nat
  b1 : Nat
  b2 : Nat
  b3 : Nat
deriving DecidableEq, Repr

/-- `ChunkType::bytes`: the four raw bytes. -/
def ChunkType.bytes (t : ChunkType) : List Nat := [t.b0, t.b1, t.b2, t.b3]

/-- `ChunkType::is_critical`: byte 0 is ASCII uppercase. -/
def ChunkType.is_critical (t : ChunkType) : Bool := isAsciiUppercase t.b0

/-- `ChunkType::is_public`: byte 1 is ASCII uppercase. -/
def ChunkType.is_public (t : ChunkType) : Bool := isAsciiUppercase t.b1

/-- `ChunkType::is_reserved_bit_valid`: byte 2 is ASCII uppercase. -/
def ChunkType.is_reserved_bit_valid (t : ChunkType) : Bool := isAsciiUppercase t.b2

/-- `ChunkType::is_safe_to_copy`: byte 3 is ASCII lowercase. -/
def ChunkType.is_safe_to_copy (t : ChunkType) : Bool := isAsciiLowercase t.b3

/-- `ChunkType::is_valid`: delegates to `is_reserved_bit_valid`. -/
def ChunkType.is_valid (t : ChunkType) : Bool := t.is_reserved_bit_valid

/-- `impl TryFrom<[u8; 4]> for ChunkType`: accept iff every byte is ASCII
alphabetic. -/
def ChunkType.tryFrom (a b c d : Nat) : Option ChunkType :=
  if isAsciiAlphabetic a && isAsciiAlphabetic b &&
      isAsciiAlphabetic c && isAsciiAlphabetic d then
    some ⟨a, b, c, d⟩
  else
    none

/-- `TryFrom<[u8; 4]>` applied to a byte list; in `Chunk` decoding the list
always has exactly four elements. -/
def ChunkType.tryFromList (l : List Nat) : Option ChunkType :=
  match l with
  | [a, b, c, d] => ChunkType.tryFrom a b c d
  | _ => none

/-! ### UTF-8, for `FromStr` (Rust's `str::as_bytes` is the UTF-8 encoding) -/

/-- The UTF-8 encoding of a single character (1 to 4 bytes).  The
multi-byte branches are written with `+` over disjoint bit ranges, which
coincides with the usual bitwise-or form. -/
def utf8EncodeChar (c : Char) : List Nat :=
  let n := c.toNat
  if n < 0x80 then
    [n]
  else if n < 0x800 then
    [0xC0 + n / 0x40, 0x80 + n % 0x40]
  else if n < 0x10000 then
    [0xE0 + n / 0x1000, 0x80 + n / 0x40 % 0x40, 0x80 + n % 0x40]
  else
    [0xF0 + n / 0x40000, 0x80 + n / 0x1000 % 0x40, 0x80 + n / 0x40 % 0x40,
      0x80 + n % 0x40]

/-- `str::as_bytes`: the UTF-8 bytes of a string, the string being modelled
as its list of characters. -/
def strBytes (s : List Char) : List Nat := (s.map utf8EncodeChar).flatten

/-- `impl FromStr for ChunkType`: check that every UTF-8 byte is ASCII
alphabetic, then convert the byte slice into a `[u8; 4]` (failing when the
length is not 4) and wrap it. -/
def ChunkType.from_str (s : List Char) : Option ChunkType :=
  let bs := strBytes s
  if bs.all isAsciiAlphabetic then
    match bs with
    | [a, b, c, d] => some ⟨a, b, c, d⟩
    | _ => none
  else
    none

/-! ## Errors and decode results -/

/-- The error kinds produced by the embedded operations; the Rust source
uses boxed `dyn Error` values, distinguished here by their origin:
`invalidLength` is the `"invalid length"` string error, `invalidChunkType`
the `"Invalid ChunkType"` error, `readError` an `std::io` error from
`read_exact`, `invalidCrc` the `"invalid crc"` error and `notFound` the
container's missing-chunk error. -/
inductive PngError where
  | invalidLength
  | invalidChunkType
  | readError
  | invalidCrc
  | notFound
deriving DecidableEq, Repr

/-- Result of running a fallible Rust function: a value, a recoverable
error, or a runtime panic (an abort, not an error value). -/
inductive DecodeResult (α : Type) where
  | ok (a : α)
  | err (e : PngError)
  | panic
deriving DecidableEq, Repr

/-! ## Chunk (src/chunk.rs) -/

/-- `struct Chunk { length: u32, chunk_type: ChunkType, data: Vec<u8>, crc: u32 }` -/
structure Chunk where
  length : Nat
  chunk_type : ChunkType
  data : List Nat
  crc : Nat
deriving DecidableEq, Repr

/-- `Chunk::new`: length is `data.len() as u32` (truncating), crc is the
CRC-32/ISO-HDLC of the type bytes followed by the data. -/
def Chunk.new (t : ChunkType) (data : List Nat) : Chunk :=
  { length := data.length % 2 ^ 32
    chunk_type := t
    data := data
    crc := crc32 (t.bytes ++ data) }

/-- `Chunk::new` stores the truncated payload length. -/
theorem Chunk.new_length (t : ChunkType) (data : List Nat) :
    (Chunk.new t data).length = data.length % 2 ^ 32 := rfl

/-- `Chunk::new` stores the payload unchanged. -/
theorem Chunk.new_data (t : ChunkType) (data : List Nat) :
    (Chunk.new t data).data = data := rfl

/-- `Chunk::new` stores the chunk type unchanged. -/
theorem Chunk.new_chunk_type (t : ChunkType) (data : List Nat) :
    (Chunk.new t data).chunk_type = t := rfl

/-- `Chunk::new` stores the CRC of type bytes followed by payload. -/
theorem Chunk.new_crc (t : ChunkType) (data : List Nat) :
    (Chunk.new t data).crc = crc32 (t.bytes ++ data) := rfl

/-- `Chunk::as_bytes`: big-endian length, type bytes, data, big-endian crc. -/
def Chunk.as_bytes (c : Chunk) : List Nat :=
  u32ToBe c.length ++ c.chunk_type.bytes ++ c.data ++ u32ToBe c.crc

/-- `impl TryFrom<&[u8]> for Chunk`, step for step:
reject buffers shorter than 12 bytes; read the big-endian length; construct
the `ChunkType` from the next four bytes (propagating its error); read the
remaining bytes and `drain` the declared number of payload bytes out of them
— `Vec::drain` panics when the declared length exceeds what remains; read
the next four bytes as the stored CRC (`read_exact` fails when fewer than
four remain); recompute the CRC over type bytes ++ payload and compare. -/
def Chunk.decode (value : List Nat) : DecodeResult Chunk :=
  if value.length < 12 then
    .err .invalidLength
  else
    let length := u32FromBe (value.take 4)
    match ChunkType.tryFromList ((value.drop 4).take 4) with
    | none => .err .invalidChunkType
    | some t =>
      let rest := value.drop 8
      if rest.length < length then
        .panic
      else
        let data := rest.take length
        let rest2 := rest.drop length
        if rest2.length < 4 then
          .err .readError
        else
          let crc := u32FromBe (rest2.take 4)
          let expected := crc32 (t.bytes ++ data)
          if crc ≠ expected then
            .err .invalidCrc
          else
            .ok { length := length, chunk_type := t, data := data, crc := crc }

/-! ## PNG container

`main.rs` declares `mod png`, but `png.rs` is not part of the sources at
hand; the container is therefore modelled from the specification. -/

/-- Modelled from the spec: the missing `png.rs`'s `Png` struct, "an
ordered sequence of owned Chunks". -/
structure Png where
  chunks : List Chunk
deriving DecidableEq, Repr

/-- Modelled from the spec: the missing `png.rs`'s `Png::append_chunk`,
"appends to the end of the sequence; always succeeds". -/
def Png.append_chunk (p : Png) (c : Chunk) : Png := ⟨p.chunks ++ [c]⟩

/-- Modelled from the spec: the scan inside the missing `png.rs`'s
`Png::remove_chunk`, "scan the sequence for the first chunk whose type
equals the given type; remove it in place, preserving relative order of the
remainder"; `none` when no chunk matches. -/
def removeFirst (t : ChunkType) : List Chunk → Option (List Chunk)
  | [] => none
  | c :: rest =>
    if c.chunk_type = t then
      some rest
    else
      match removeFirst t rest with
      | some rest' => some (c :: rest')
      | none => none

/-- Modelled from the spec: the missing `png.rs`'s `Png::remove_chunk`.
The type text "must be parseable into a valid ChunkTypeCode (propagates
that error)"; then the first chunk of that type is removed, and the call
"fails with `NotFound` ... if no matching chunk exists" and "leaves the
sequence unchanged".  The returned pair is the call's result together with
the container state after the call. -/
def Png.remove_chunk (p : Png) (s : List Char) : Except PngError Unit × Png :=
  match ChunkType.from_str s with
  | none => (.error .invalidChunkType, p)
  | some t =>
    match removeFirst t p.chunks with
    | some cs => (.ok (), ⟨cs⟩)
    | none => (.error .notFound, p)

/-! ## Supporting lemmas: big-endian `u32` serialization -/

theorem u32ToBe_length (n : Nat) : (u32ToBe n).length = 4 := rfl

theorem u32ToBe_mem_lt (n : Nat) : ∀ x ∈ u32ToBe n, x < 256 := by
  intro x hx
  simp only [u32ToBe, List.mem_cons, List.not_mem_nil, or_false] at hx
  rcases hx with h | h | h | h <;> subst h <;> exact Nat.mod_lt _ (by norm_num)

theorem u32FromBe_u32ToBe (n : Nat) (h : n < 2 ^ 32) : u32FromBe (u32ToBe n) = n := by
  simp only [u32ToBe, u32FromBe]
  omega

theorem u32ToBe_u32FromBe (l : List Nat) (hlen : l.length = 4)
    (hb : ∀ x ∈ l, x < 256) : u32ToBe (u32FromBe l) = l := by
  match l, hlen with
  | [a, b, c, d], _ =>
    have ha := hb a (by simp)
    have hbb := hb b (by simp)
    have hc := hb c (by simp)
    have hd := hb d (by simp)
    simp only [u32FromBe, u32ToBe, List.cons.injEq, and_true]
    refine ⟨by omega, by omega, by omega, by omega⟩

theorem u32FromBe_lt (l : List Nat) (hlen : l.length = 4)
    (hb : ∀ x ∈ l, x < 256) : u32FromBe l < 2 ^ 32 := by
  match l, hlen with
  | [a, b, c, d], _ =>
    have ha := hb a (by simp)
    have hbb := hb b (by simp)
    have hc := hb c (by simp)
    have hd := hb d (by simp)
    simp only [u32FromBe]
    omega

/-! ## Supporting lemmas: CRC state bounds -/

theorem crcBitStep_lt {s : Nat} (h : s < 2 ^ 32) : crcBitStep s < 2 ^ 32 := by
  unfold crcBitStep
  have h1 : s >>> 1 < 2 ^ 32 := by
    rw [Nat.shiftRight_one]
    omega
  split
  · exact Nat.xor_lt_two_pow h1 (by norm_num [CRC32_POLY])
  · exact h1

theorem iterate_crcBitStep_lt (k : Nat) {s : Nat} (h : s < 2 ^ 32) :
    crcBitStep^[k] s < 2 ^ 32 := by
  induction k generalizing s with
  | zero => exact h
  | succ n ih =>
    rw [Function.iterate_succ_apply]
    exact ih (crcBitStep_lt h)

theorem crcByteStep_lt {s b : Nat} (hs : s < 2 ^ 32) (hb : b < 2 ^ 32) :
    crcByteStep s b < 2 ^ 32 := by
  unfold crcByteStep
  exact iterate_crcBitStep_lt 8 (Nat.xor_lt_two_pow hs hb)

theorem crcFold_lt {l : List Nat} {s : Nat} (hs : s < 2 ^ 32)
    (hb : ∀ x ∈ l, x < 256) : l.foldl crcByteStep s < 2 ^ 32 := by
  induction l generalizing s with
  | nil => exact hs
  | cons a t ih =>
    rw [List.foldl_cons]
    have ha : a < 2 ^ 32 := by have := hb a (by simp); omega
    exact ih (crcByteStep_lt hs ha) (fun x hx => hb x (by simp [hx]))

theorem crc32_lt {l : List Nat} (hb : ∀ x ∈ l, x < 256) : crc32 l < 2 ^ 32 := by
  unfold crc32
  exact Nat.xor_lt_two_pow (crcFold_lt (by norm_num) hb) (by norm_num)

/-! ## Supporting lemmas: the CRC update is linear over xor and kills no
nonzero state -/

theorem xorLeftComm (a b c : Nat) : a ^^^ (b ^^^ c) = b ^^^ (a ^^^ c) := by
  rw [← Nat.xor_assoc, Nat.xor_comm a b, Nat.xor_assoc]

theorem xorXorXorComm (x y z w : Nat) :
    (x ^^^ y) ^^^ (z ^^^ w) = (x ^^^ z) ^^^ (y ^^^ w) := by
  rw [Nat.xor_assoc, xorLeftComm y z w, ← Nat.xor_assoc]

theorem crcBitStep_zero : crcBitStep 0 = 0 := rfl

theorem crcBitStep_eq (s : Nat) :
    crcBitStep s = s / 2 ^^^ s % 2 * CRC32_POLY := by
  unfold crcBitStep
  rw [Nat.shiftRight_one]
  rcases Nat.mod_two_eq_zero_or_one s with hs | hs <;> rw [hs] <;> simp

theorem crcBitStep_xor (a b : Nat) :
    crcBitStep (a ^^^ b) = crcBitStep a ^^^ crcBitStep b := by
  rw [crcBitStep_eq, crcBitStep_eq, crcBitStep_eq, Nat.xor_div_two]
  have hab : (a ^^^ b) % 2 = (a % 2 + b % 2) % 2 := by
    rw [Nat.xor_mod_two_eq, Nat.add_mod]
  have hp : (a ^^^ b) % 2 * CRC32_POLY =
      a % 2 * CRC32_POLY ^^^ b % 2 * CRC32_POLY := by
    rcases Nat.mod_two_eq_zero_or_one a with ha | ha <;>
      rcases Nat.mod_two_eq_zero_or_one b with hb | hb <;>
      rw [ha, hb] at hab ⊢ <;> rw [hab] <;> simp
  rw [hp, xorXorXorComm]

theorem crcBitStep_eq_zero {s : Nat} (hlt : s < 2 ^ 32)
    (h : crcBitStep s = 0) : s = 0 := by
  rw [crcBitStep_eq] at h
  rcases Nat.mod_two_eq_zero_or_one s with hs | hs
  · rw [hs, Nat.zero_mul, Nat.xor_zero] at h
    omega
  · rw [hs, Nat.one_mul, Nat.xor_eq_zero] at h
    have h2 : s / 2 < 2 ^ 31 := by omega
    rw [h] at h2
    exact absurd h2 (by norm_num [CRC32_POLY])

theorem iterate_crcBitStep_zero (k : Nat) : crcBitStep^[k] 0 = 0 := by
  induction k with
  | zero => rfl
  | succ n ih => rw [Function.iterate_succ_apply, crcBitStep_zero, ih]

theorem iterate_crcBitStep_xor (k a b : Nat) :
    crcBitStep^[k] (a ^^^ b) = crcBitStep^[k] a ^^^ crcBitStep^[k] b := by
  induction k generalizing a b with
  | zero => rfl
  | succ n ih =>
    rw [Function.iterate_succ_apply, Function.iterate_succ_apply,
      Function.iterate_succ_apply, crcBitStep_xor, ih]

theorem iterate_crcBitStep_eq_zero (k : Nat) {s : Nat} (hlt : s < 2 ^ 32)
    (h : crcBitStep^[k] s = 0) : s = 0 := by
  induction k generalizing s with
  | zero => exact h
  | succ n ih =>
    rw [Function.iterate_succ_apply] at h
    exact crcBitStep_eq_zero hlt (ih (crcBitStep_lt hlt) h)

theorem crcByteStep_xor (s t b c : Nat) :
    crcByteStep (s ^^^ t) (b ^^^ c) = crcByteStep s b ^^^ crcByteStep t c := by
  unfold crcByteStep
  rw [← iterate_crcBitStep_xor]
  congr 1
  rw [Nat.xor_assoc, xorLeftComm t b c, ← Nat.xor_assoc]

theorem crcByteStep_zero_zero : crcByteStep 0 0 = 0 := by
  unfold crcByteStep
  rw [Nat.xor_zero]
  exact iterate_crcBitStep_zero 8

theorem crcByteStep_eq_zero {s b : Nat} (hs : s < 2 ^ 32) (hb : b < 2 ^ 32)
    (h : crcByteStep s b = 0) : s ^^^ b = 0 := by
  unfold crcByteStep at h
  exact iterate_crcBitStep_eq_zero 8 (Nat.xor_lt_two_pow hs hb) h

/-! ## Supporting lemmas: folding the CRC over a message -/

theorem crcFold_xor (l m : List Nat) (s t : Nat) (h : l.length = m.length) :
    l.foldl crcByteStep s ^^^ m.foldl crcByteStep t =
      (List.zipWith HXor.hXor l m).foldl crcByteStep (s ^^^ t) := by
  induction l generalizing m s t with
  | nil =>
    have : m = [] := List.eq_nil_of_length_eq_zero (by simpa using h.symm)
    subst this
    rfl
  | cons a l' ih =>
    cases m with
    | nil => simp at h
    | cons b m' =>
      simp only [List.length_cons, Nat.succ.injEq] at h
      simp only [List.zipWith_cons_cons, List.foldl_cons]
      rw [ih _ _ _ h, ← crcByteStep_xor]

theorem zipWith_xor_self (l : List Nat) :
    List.zipWith HXor.hXor l l = List.replicate l.length 0 := by
  induction l with
  | nil => rfl
  | cons a l' ih => simp [List.replicate_succ, ih]

theorem crcFold_replicate_zero (n : Nat) :
    (List.replicate n 0).foldl crcByteStep 0 = 0 := by
  induction n with
  | zero => rfl
  | succ k ih => rw [List.replicate_succ, List.foldl_cons, crcByteStep_zero_zero, ih]

theorem crcFold_replicate_zero_ne_zero (n : Nat) {s : Nat} (hs : s < 2 ^ 32)
    (h0 : s ≠ 0) : (List.replicate n 0).foldl crcByteStep s ≠ 0 := by
  induction n generalizing s with
  | zero => exact h0
  | succ k ih =>
    rw [List.replicate_succ, List.foldl_cons]
    have hlt : crcByteStep s 0 < 2 ^ 32 := crcByteStep_lt hs (by norm_num)
    refine ih hlt (fun hz => ?_)
    have h2 := crcByteStep_eq_zero hs (by norm_num) hz
    rw [Nat.xor_zero] at h2
    exact h0 h2

/-- The CRC difference of two equal-length messages that differ by a
nonzero xor in exactly one byte is itself nonzero. -/
theorem crcFold_diff_ne_zero (u w : List Nat) (b e : Nat) (he : e ≠ 0)
    (helt : e < 2 ^ 32) :
    (u ++ b :: w).foldl crcByteStep 0xFFFFFFFF ^^^
      (u ++ (b ^^^ e) :: w).foldl crcByteStep 0xFFFFFFFF ≠ 0 := by
  rw [crcFold_xor _ _ _ _ (by simp)]
  rw [List.zipWith_append _ u _ u _ rfl, List.zipWith_cons_cons,
    zipWith_xor_self, zipWith_xor_self, Nat.xor_self]
  have hb : b ^^^ (b ^^^ e) = e := Nat.xor_cancel_left _ _
  rw [hb, List.foldl_append, crcFold_replicate_zero, List.foldl_cons]
  have h1 : crcByteStep 0 e ≠ 0 := fun hz => by
    have h2 := crcByteStep_eq_zero (by norm_num) helt hz
    rw [Nat.zero_xor] at h2
    exact he h2
  exact crcFold_replicate_zero_ne_zero _ (crcByteStep_lt (by norm_num) helt) h1

/-- CRC-32 distinguishes two messages that differ by flipping bits (a
nonzero xor mask below `2 ^ 32`) inside a single byte. -/
theorem crc32_flip_ne (u w : List Nat) (b e : Nat) (he : e ≠ 0)
    (helt : e < 2 ^ 32) :
    crc32 (u ++ b :: w) ≠ crc32 (u ++ (b ^^^ e) :: w) := by
  unfold crc32
  intro h
  have h2 := Nat.xor_left_inj.mp h
  have := crcFold_diff_ne_zero u w b e he helt
  rw [h2, Nat.xor_self] at this
  exact this rfl

/-! ## Supporting lemmas: decoding a structurally well-formed record -/

/-- Decoding a buffer that carries a structurally well-formed record —
correct declared length, four alphabetic type bytes, a stored CRC word and
arbitrary trailing bytes — reaches the CRC comparison and is decided by
it. -/
theorem decode_record (a b c d : Nat) (data : List Nat) (K : Nat)
    (trail : List Nat)
    (ha : isAsciiAlphabetic a = true) (hab : isAsciiAlphabetic b = true)
    (hac : isAsciiAlphabetic c = true) (had : isAsciiAlphabetic d = true)
    (hL : data.length < 2 ^ 32) (hK : K < 2 ^ 32) :
    Chunk.decode (u32ToBe data.length ++ [a, b, c, d] ++ data ++ u32ToBe K ++ trail) =
      if K = crc32 ([a, b, c, d] ++ data) then
        .ok ⟨data.length, ⟨a, b, c, d⟩, data, K⟩
      else
        .err .invalidCrc := by
  have h4 : u32ToBe data.length ++ [a, b, c, d] ++ data ++ u32ToBe K ++ trail =
      u32ToBe data.length ++ ([a, b, c, d] ++ (data ++ (u32ToBe K ++ trail))) := by
    simp [List.append_assoc]
  have h8 : u32ToBe data.length ++ [a, b, c, d] ++ data ++ u32ToBe K ++ trail =
      (u32ToBe data.length ++ [a, b, c, d]) ++ (data ++ (u32ToBe K ++ trail)) := by
    simp [List.append_assoc]
  have take4 : (u32ToBe data.length ++ [a, b, c, d] ++ data ++ u32ToBe K ++ trail).take 4 =
      u32ToBe data.length := by
    rw [h4]; exact List.take_left' (u32ToBe_length _)
  have dropTake : ((u32ToBe data.length ++ [a, b, c, d] ++ data ++ u32ToBe K ++ trail).drop 4).take 4 =
      [a, b, c, d] := by
    rw [h4, List.drop_left' (u32ToBe_length _)]
    exact List.take_left' rfl
  have drop8 : (u32ToBe data.length ++ [a, b, c, d] ++ data ++ u32ToBe K ++ trail).drop 8 =
      data ++ (u32ToBe K ++ trail) := by
    rw [h8]
    exact List.drop_left' (by simp [u32ToBe])
  have hlen12 : ¬ ((u32ToBe data.length ++ [a, b, c, d] ++ data ++ u32ToBe K ++ trail).length < 12) := by
    simp [u32ToBe]
    omega
  have hnopanic : ¬ ((data ++ (u32ToBe K ++ trail)).length < data.length) := by
    simp [u32ToBe]
  have hcrcread : ¬ ((u32ToBe K ++ trail).length < 4) := by
    simp [u32ToBe]
  unfold Chunk.decode
  rw [if_neg hlen12, take4, dropTake, u32FromBe_u32ToBe _ hL, drop8]
  have htf : ChunkType.tryFromList [a, b, c, d] = some ⟨a, b, c, d⟩ := by
    simp [ChunkType.tryFromList, ChunkType.tryFrom, ha, hab, hac, had]
  rw [htf]
  simp only [if_neg hnopanic, List.take_left, List.drop_left, if_neg hcrcread,
    List.take_left' (u32ToBe_length K), u32FromBe_u32ToBe _ hK]
  by_cases hKC : K = crc32 ([a, b, c, d] ++ data)
  · rw [if_pos hKC]
    rw [if_neg (by simp [ChunkType.bytes, hKC])]
  · rw [if_neg hKC]
    rw [if_pos (by simp [ChunkType.bytes]; exact hKC)]

/-! ## Supporting lemmas: inverting a successful decode -/

theorem tryFromList_eq_some {l : List Nat} {t : ChunkType}
    (h : ChunkType.tryFromList l = some t) :
    l = t.bytes ∧ isAsciiAlphabetic t.b0 = true ∧ isAsciiAlphabetic t.b1 = true ∧
      isAsciiAlphabetic t.b2 = true ∧ isAsciiAlphabetic t.b3 = true := by
  rcases l with _ | ⟨a, l⟩
  · simp [ChunkType.tryFromList] at h
  rcases l with _ | ⟨b, l⟩
  · simp [ChunkType.tryFromList] at h
  rcases l with _ | ⟨c, l⟩
  · simp [ChunkType.tryFromList] at h
  rcases l with _ | ⟨d, l⟩
  · simp [ChunkType.tryFromList] at h
  rcases l with _ | ⟨e, l⟩
  · simp only [ChunkType.tryFromList, ChunkType.tryFrom] at h
    split at h
    · rename_i hcond
      simp only [Option.some.injEq] at h
      subst h
      simp only [Bool.and_eq_true] at hcond
      exact ⟨rfl, hcond.1.1.1, hcond.1.1.2, hcond.1.2, hcond.2⟩
    · simp at h
  · simp [ChunkType.tryFromList] at h

theorem decode_ok_inversion {buf : List Nat} {c : Chunk}
    (hbytes : ∀ x ∈ buf, x < 256) (h : Chunk.decode buf = .ok c) :
    12 + c.length ≤ buf.length ∧
    c.data.length = c.length ∧
    c.crc = crc32 (c.chunk_type.bytes ++ c.data) ∧
    isAsciiAlphabetic c.chunk_type.b0 = true ∧
    isAsciiAlphabetic c.chunk_type.b1 = true ∧
    isAsciiAlphabetic c.chunk_type.b2 = true ∧
    isAsciiAlphabetic c.chunk_type.b3 = true ∧
    c.length < 2 ^ 32 ∧
    c.crc < 2 ^ 32 ∧
    buf = u32ToBe c.length ++ c.chunk_type.bytes ++ c.data ++ u32ToBe c.crc ++
      buf.drop (12 + c.length) := by
  simp only [Chunk.decode] at h
  split at h
  · exact absurd h (by simp)
  rename_i hn12
  split at h
  · exact absurd h (by simp)
  rename_i t htf
  split at h
  · exact absurd h (by simp)
  rename_i hnp
  split at h
  · exact absurd h (by simp)
  rename_i hr2
  split at h
  · exact absurd h (by simp)
  rename_i hcrc
  rw [ne_eq, not_not] at hcrc
  simp only [DecodeResult.ok.injEq] at h
  subst h
  obtain ⟨hTb, hA0, hA1, hA2, hA3⟩ := tryFromList_eq_some htf
  simp only [List.length_drop] at hnp hr2
  have hlen : ¬ (buf.length < 12) := hn12
  have hLlen : 12 + u32FromBe (buf.take 4) ≤ buf.length := by omega
  refine ⟨hLlen, ?_, hcrc, hA0, hA1, hA2, hA3, ?_, ?_, ?_⟩
  · simp only [List.length_take, List.length_drop]
    omega
  · -- the declared length was read from four bytes
    refine u32FromBe_lt _ ?_ ?_
    · simp only [List.length_take]
      omega
    · intro x hx
      exact hbytes x (List.mem_of_mem_take hx)
  · -- the stored CRC was read from four bytes
    refine u32FromBe_lt _ ?_ ?_
    · simp only [List.length_take, List.length_drop]
      omega
    · intro x hx
      exact hbytes x (List.mem_of_mem_drop (List.mem_of_mem_drop (List.mem_of_mem_take hx)))
  · -- reconstruction
    have e1 : buf.take 4 ++ buf.drop 4 = buf := List.take_append_drop 4 buf
    have e2 : (buf.drop 4).take 4 ++ (buf.drop 4).drop 4 = buf.drop 4 :=
      List.take_append_drop 4 (buf.drop 4)
    have e2' : (buf.drop 4).drop 4 = buf.drop 8 := by
      rw [List.drop_drop]
    have e3 : (buf.drop 8).take (u32FromBe (buf.take 4)) ++
        (buf.drop 8).drop (u32FromBe (buf.take 4)) = buf.drop 8 :=
      List.take_append_drop _ _
    have e4 : ((buf.drop 8).drop (u32FromBe (buf.take 4))).take 4 ++
        ((buf.drop 8).drop (u32FromBe (buf.take 4))).drop 4 =
        (buf.drop 8).drop (u32FromBe (buf.take 4)) :=
      List.take_append_drop _ _
    have e5 : ((buf.drop 8).drop (u32FromBe (buf.take 4))).drop 4 =
        buf.drop (12 + u32FromBe (buf.take 4)) := by
      rw [List.drop_drop, List.drop_drop]
      congr 1
      omega
    have hbe1 : u32ToBe (u32FromBe (buf.take 4)) = buf.take 4 := by
      refine u32ToBe_u32FromBe _ ?_ ?_
      · simp only [List.length_take]
        omega
      · intro x hx
        exact hbytes x (List.mem_of_mem_take hx)
    have hbe2 : u32ToBe (u32FromBe (((buf.drop 8).drop (u32FromBe (buf.take 4))).take 4)) =
        ((buf.drop 8).drop (u32FromBe (buf.take 4))).take 4 := by
      refine u32ToBe_u32FromBe _ ?_ ?_
      · simp only [List.length_take, List.length_drop]
        omega
      · intro x hx
        exact hbytes x (List.mem_of_mem_drop (List.mem_of_mem_drop (List.mem_of_mem_take hx)))
    simp only [hbe1, hbe2, ← hTb]
    calc buf = buf.take 4 ++ buf.drop 4 := e1.symm
      _ = buf.take 4 ++ ((buf.drop 4).take 4 ++ buf.drop 8) := by rw [← e2', e2]
      _ = buf.take 4 ++ ((buf.drop 4).take 4 ++
            ((buf.drop 8).take (u32FromBe (buf.take 4)) ++
              (buf.drop 8).drop (u32FromBe (buf.take 4)))) := by rw [e3]
      _ = buf.take 4 ++ ((buf.drop 4).take 4 ++
            ((buf.drop 8).take (u32FromBe (buf.take 4)) ++
              (((buf.drop 8).drop (u32FromBe (buf.take 4))).take 4 ++
                ((buf.drop 8).drop (u32FromBe (buf.take 4))).drop 4))) := by rw [e4]
      _ = _ := by rw [e5]; simp [List.append_assoc]

/-! ## Supporting lemmas: small list and byte facts -/

theorem append4_assoc4 (A B S C : List Nat) :
    A ++ B ++ S ++ C = A ++ (B ++ (S ++ C)) := by
  simp [List.append_assoc]

theorem append4_assoc8 (A B S C : List Nat) :
    A ++ B ++ S ++ C = (A ++ B) ++ (S ++ C) := by
  simp [List.append_assoc]

theorem length_append4 (A B S C : List Nat) :
    (A ++ B ++ S ++ C).length = A.length + B.length + S.length + C.length := by
  rw [List.length_append, List.length_append, List.length_append]

theorem alpha_lt_256 {b : Nat} (h : isAsciiAlphabetic b = true) : b < 256 := by
  unfold isAsciiAlphabetic isAsciiUppercase isAsciiLowercase at h
  simp only [Bool.or_eq_true, Bool.and_eq_true, decide_eq_true_eq] at h
  omega

theorem tryFrom_eq_some {a b c d : Nat} {t : ChunkType}
    (h : ChunkType.tryFrom a b c d = some t) :
    t = ⟨a, b, c, d⟩ ∧ isAsciiAlphabetic a = true ∧ isAsciiAlphabetic b = true ∧
      isAsciiAlphabetic c = true ∧ isAsciiAlphabetic d = true := by
  unfold ChunkType.tryFrom at h
  split at h
  · rename_i hcond
    simp only [Option.some.injEq] at h
    simp only [Bool.and_eq_true] at hcond
    exact ⟨h.symm, hcond.1.1.1, hcond.1.1.2, hcond.1.2, hcond.2⟩
  · simp at h

/-! ## Supporting lemmas: the container model -/

theorem removeFirst_eq_none {t : ChunkType} {l : List Chunk}
    (h : ∀ x ∈ l, x.chunk_type ≠ t) : removeFirst t l = none := by
  induction l with
  | nil => rfl
  | cons a l' ih =>
    unfold removeFirst
    rw [if_neg (h a (by simp)), ih (fun x hx => h x (by simp [hx]))]

theorem removeFirst_append_singleton {t : ChunkType} {l : List Chunk} {c : Chunk}
    (h : ∀ x ∈ l, x.chunk_type ≠ t) (hc : c.chunk_type = t) :
    removeFirst t (l ++ [c]) = some l := by
  induction l with
  | nil => simp [removeFirst, hc]
  | cons a l' ih =>
    rw [List.cons_append]
    unfold removeFirst
    rw [if_neg (h a (by simp)), ih (fun x hx => h x (by simp [hx]))]

/-! ## Concrete inputs used by the claims -/

set_option maxRecDepth 40000

/-- The bytes of `"This is where your secret message will be!"`. -/
def secretMessage : List Nat :=
  [84, 104, 105, 115, 32, 105, 115, 32, 119, 104, 101, 114, 101, 32, 121, 111,
   117, 114, 32, 115, 101, 99, 114, 101, 116, 32, 109, 101, 115, 115, 97, 103,
   101, 32, 119, 105, 108, 108, 32, 98, 101, 33]

/-- A valid 12-byte chunk record: declared length 0, type `"RuSt"`, empty
payload, stored CRC `crc32 [82, 117, 83, 116] = 3565422908`. -/
def c4Buf : List Nat := [0, 0, 0, 0, 82, 117, 83, 116] ++ u32ToBe 3565422908

/-- A one-chunk container of type `"RuSt"` with payload `[0]`. -/
def c3Png : Png := ⟨[Chunk.new ⟨82, 117, 83, 116⟩ [0]]⟩

/-! ## The claims -/

/-- C1 counterexample: `Chunk::new` truncates the stored length to `u32`,
so the round-trip fails for a `2 ^ 32`-byte payload: the encoded buffer
declares length `0` and decoding stops with a CRC mismatch instead of
returning the original chunk. -/
theorem c1_roundtrip_counterexample :
    Chunk.decode (Chunk.as_bytes (Chunk.new ⟨82, 117, 83, 116⟩
      (List.replicate (2 ^ 32) 0))) = .err .invalidCrc := by
  have habytes : Chunk.as_bytes (Chunk.new ⟨82, 117, 83, 116⟩ (List.replicate (2 ^ 32) 0)) =
      u32ToBe 0 ++ [82, 117, 83, 116] ++ List.replicate (2 ^ 32) 0 ++
        u32ToBe (crc32 ([82, 117, 83, 116] ++ List.replicate (2 ^ 32) 0)) := by
    unfold Chunk.as_bytes
    rw [Chunk.new_length, Chunk.new_chunk_type, Chunk.new_data, Chunk.new_crc,
      List.length_replicate, Nat.mod_self]
    rfl
  rw [habytes]
  have take4 : (u32ToBe 0 ++ [82, 117, 83, 116] ++ List.replicate (2 ^ 32) 0 ++
      u32ToBe (crc32 ([82, 117, 83, 116] ++ List.replicate (2 ^ 32) 0))).take 4 =
      u32ToBe 0 := by
    rw [append4_assoc4]; exact List.take_left' (u32ToBe_length _)
  have dropTake : ((u32ToBe 0 ++ [82, 117, 83, 116] ++ List.replicate (2 ^ 32) 0 ++
      u32ToBe (crc32 ([82, 117, 83, 116] ++ List.replicate (2 ^ 32) 0))).drop 4).take 4 =
      [82, 117, 83, 116] := by
    rw [append4_assoc4, List.drop_left' (u32ToBe_length _)]
    exact List.take_left' rfl
  have drop8 : (u32ToBe 0 ++ [82, 117, 83, 116] ++ List.replicate (2 ^ 32) 0 ++
      u32ToBe (crc32 ([82, 117, 83, 116] ++ List.replicate (2 ^ 32) 0))).drop 8 =
      List.replicate (2 ^ 32) 0 ++
        u32ToBe (crc32 ([82, 117, 83, 116] ++ List.replicate (2 ^ 32) 0)) := by
    rw [append4_assoc8]
    exact List.drop_left' (by rw [List.length_append, u32ToBe_length]; rfl)
  have hlen12 : ¬ ((u32ToBe 0 ++ [82, 117, 83, 116] ++ List.replicate (2 ^ 32) 0 ++
      u32ToBe (crc32 ([82, 117, 83, 116] ++ List.replicate (2 ^ 32) 0))).length < 12) := by
    rw [length_append4, u32ToBe_length, u32ToBe_length, List.length_replicate,
      show ([82, 117, 83, 116] : List Nat).length = 4 from rfl]
    norm_num
  have hsplit : List.replicate (2 ^ 32) (0 : Nat) =
      List.replicate 4 0 ++ List.replicate 4294967292 0 := by
    rw [← List.replicate_add]
    norm_num
  have htk4 : (List.replicate (2 ^ 32) (0 : Nat) ++
      u32ToBe (crc32 ([82, 117, 83, 116] ++ List.replicate (2 ^ 32) 0))).take 4 =
      [0, 0, 0, 0] := by
    rw [hsplit, List.append_assoc, List.take_left' (by rw [List.length_replicate])]
    rfl
  have hr2 : ¬ ((List.replicate (2 ^ 32) (0 : Nat) ++
      u32ToBe (crc32 ([82, 117, 83, 116] ++ List.replicate (2 ^ 32) 0))).length < 4) := by
    rw [List.length_append, u32ToBe_length, List.length_replicate]
    norm_num
  unfold Chunk.decode
  rw [if_neg hlen12, take4, dropTake, drop8]
  rw [show u32FromBe (u32ToBe 0) = 0 from by decide]
  rw [show ChunkType.tryFromList [82, 117, 83, 116] = some ⟨82, 117, 83, 116⟩ from by decide]
  simp only [if_neg (Nat.not_lt_zero _), List.take_zero, List.drop_zero]
  rw [if_neg hr2, htk4]
  rw [show u32FromBe [0, 0, 0, 0] = 0 from by decide]
  rw [if_pos (by decide : (0 : Nat) ≠ crc32 (ChunkType.bytes ⟨82, 117, 83, 116⟩ ++ []))]

/-- C1 amended: for every chunk built by `Chunk::new` from a constructible
`ChunkType` and a byte sequence shorter than `2 ^ 32` bytes, decoding
`as_bytes` succeeds and returns a chunk equal in every field. -/
theorem c1_roundtrip (a b c d : Nat) (t : ChunkType) (data : List Nat)
    (ht : ChunkType.tryFrom a b c d = some t)
    (hdata : ∀ x ∈ data, x < 256) (hlen : data.length < 2 ^ 32) :
    Chunk.decode (Chunk.as_bytes (Chunk.new t data)) = .ok (Chunk.new t data) := by
  obtain ⟨rfl, ha, hab, hac, had⟩ := tryFrom_eq_some ht
  have hbytesK : ∀ x ∈ ChunkType.bytes ⟨a, b, c, d⟩ ++ data, x < 256 := by
    intro x hx
    rcases List.mem_append.mp hx with hx | hx
    · simp only [ChunkType.bytes, List.mem_cons, List.not_mem_nil, or_false] at hx
      rcases hx with h | h | h | h <;> subst h <;>
        first
        | exact alpha_lt_256 ha
        | exact alpha_lt_256 hab
        | exact alpha_lt_256 hac
        | exact alpha_lt_256 had
    · exact hdata x hx
  have hK : crc32 (ChunkType.bytes ⟨a, b, c, d⟩ ++ data) < 2 ^ 32 := crc32_lt hbytesK
  have hmod : data.length % 2 ^ 32 = data.length := Nat.mod_eq_of_lt hlen
  have hnew : Chunk.new ⟨a, b, c, d⟩ data =
      ⟨data.length, ⟨a, b, c, d⟩, data, crc32 (ChunkType.bytes ⟨a, b, c, d⟩ ++ data)⟩ := by
    unfold Chunk.new
    rw [hmod]
  have habytes : Chunk.as_bytes (Chunk.new ⟨a, b, c, d⟩ data) =
      u32ToBe data.length ++ [a, b, c, d] ++ data ++
        u32ToBe (crc32 ([a, b, c, d] ++ data)) ++ [] := by
    unfold Chunk.as_bytes
    rw [Chunk.new_length, Chunk.new_chunk_type, Chunk.new_data, Chunk.new_crc, hmod,
      List.append_nil]
    rfl
  rw [habytes, decode_record a b c d data _ [] ha hab hac had hlen
    (by rw [show crc32 ([a, b, c, d] ++ data) =
        crc32 (ChunkType.bytes ⟨a, b, c, d⟩ ++ data) from rfl]; exact hK)]
  rw [if_pos rfl, hnew]
  rfl

/-- C1 witness: `c1_roundtrip` on the type `"RuSt"` with the empty payload. -/
theorem c1_roundtrip_witness :
    Chunk.decode (Chunk.as_bytes (Chunk.new ⟨82, 117, 83, 116⟩ [])) =
      .ok (Chunk.new ⟨82, 117, 83, 116⟩ []) :=
  c1_roundtrip 82 117 83 116 ⟨82, 117, 83, 116⟩ [] (by decide) (by simp) (by norm_num)

/-- C2: a buffer of at least 12 bytes whose declared payload length exceeds
the bytes remaining after the type field does not produce a recoverable
error value — `Vec::drain(..length)` panics.  Here: 12-byte buffer, declared
length 5, only 4 bytes remaining after the type bytes. -/
theorem c2_overlong_declared_length_panics :
    Chunk.decode [0, 0, 0, 5, 82, 117, 83, 116, 0, 0, 0, 0] = .panic := by
  decide

/-- C9: for the chunk type `"RuSt"` and the payload bytes of
`"This is where your secret message will be!"`, `Chunk::new` yields
`crc() = 2882656334` and `length() = 42`. -/
theorem c9_known_vector :
    ChunkType.from_str ['R', 'u', 'S', 't'] = some ⟨82, 117, 83, 116⟩ ∧
    (Chunk.new ⟨82, 117, 83, 116⟩ secretMessage).crc = 2882656334 ∧
    (Chunk.new ⟨82, 117, 83, 116⟩ secretMessage).length = 42 := by
  decide

/-- C7: for every constructible `ChunkType`, `is_critical` is the case bit
of byte 0, `is_public` of byte 1, `is_reserved_bit_valid` of byte 2,
`is_safe_to_copy` is byte 3 lowercase, and `is_valid` equals
`is_reserved_bit_valid`; `"RuSt"` gives critical, non-public,
reserved-bit-valid, safe-to-copy, and `"Rust"` constructs but is invalid. -/
theorem c7_case_bits :
    (∀ a b c d t, ChunkType.tryFrom a b c d = some t →
      t.is_critical = isAsciiUppercase a ∧
      t.is_public = isAsciiUppercase b ∧
      t.is_reserved_bit_valid = isAsciiUppercase c ∧
      t.is_safe_to_copy = isAsciiLowercase d ∧
      t.is_valid = t.is_reserved_bit_valid) ∧
    (∃ t, ChunkType.from_str ['R', 'u', 'S', 't'] = some t ∧
      t.is_critical = true ∧ t.is_public = false ∧
      t.is_reserved_bit_valid = true ∧ t.is_safe_to_copy = true) ∧
    (∃ t, ChunkType.from_str ['R', 'u', 's', 't'] = some t ∧
      t.is_valid = false) := by
  refine ⟨?_, ⟨⟨82, 117, 83, 116⟩, by decide⟩, ⟨⟨82, 117, 115, 116⟩, by decide⟩⟩
  intro a b c d t ht
  unfold ChunkType.tryFrom at ht
  split at ht
  · simp only [Option.some.injEq] at ht
    subst ht
    exact ⟨rfl, rfl, rfl, rfl, rfl⟩
  · simp at ht

/-- C7 witness: the universal part of `c7_case_bits` applied to the
constructible type `"RuSt"`. -/
theorem c7_case_bits_witness :
    (ChunkType.mk 82 117 83 116).is_critical = isAsciiUppercase 82 :=
  (c7_case_bits.1 82 117 83 116 ⟨82, 117, 83, 116⟩ (by decide)).1

/-- C5 counterexample: `Chunk::new` stores `data.len() as u32`, so a
payload of `2 ^ 32` bytes yields `length() = 0`, not the byte count of
`data()`. -/
theorem c5_length_counterexample :
    (Chunk.new ⟨82, 117, 83, 116⟩ (List.replicate (2 ^ 32) 0)).length ≠
      (Chunk.new ⟨82, 117, 83, 116⟩ (List.replicate (2 ^ 32) 0)).data.length := by
  rw [Chunk.new_length, Chunk.new_data, List.length_replicate, Nat.mod_self]
  norm_num

/-- C5 amended: chunks from `Chunk::new` always satisfy the CRC invariant,
and satisfy the length invariant whenever the payload is shorter than
`2 ^ 32` bytes; chunks from a successful byte-decode satisfy both. -/
theorem c5_invariants :
    (∀ t data, (Chunk.new t data).crc =
      crc32 ((Chunk.new t data).chunk_type.bytes ++ (Chunk.new t data).data)) ∧
    (∀ t (data : List Nat), data.length < 2 ^ 32 →
      (Chunk.new t data).length = (Chunk.new t data).data.length) ∧
    (∀ buf c, (∀ x ∈ buf, x < 256) → Chunk.decode buf = .ok c →
      c.length = c.data.length ∧
      c.crc = crc32 (c.chunk_type.bytes ++ c.data)) := by
  refine ⟨fun t data => rfl, fun t data h => ?_, fun buf c hb h => ?_⟩
  · rw [Chunk.new_length, Chunk.new_data, Nat.mod_eq_of_lt h]
  · obtain ⟨-, hdl, hcrc, -, -, -, -, -, -, -⟩ := decode_ok_inversion hb h
    exact ⟨hdl.symm, hcrc⟩

/-- C5 witness: `c5_invariants` applied to the type `"RuSt"`, the one-byte
payload `[7]`, and the buffer `c4Buf`. -/
theorem c5_invariants_witness :
    (Chunk.new ⟨82, 117, 83, 116⟩ [7]).length =
      (Chunk.new ⟨82, 117, 83, 116⟩ [7]).data.length ∧
    (⟨0, ⟨82, 117, 83, 116⟩, [], 3565422908⟩ : Chunk).length =
      (⟨0, ⟨82, 117, 83, 116⟩, [], 3565422908⟩ : Chunk).data.length :=
  ⟨c5_invariants.2.1 ⟨82, 117, 83, 116⟩ [7] (by decide),
    (c5_invariants.2.2 c4Buf ⟨0, ⟨82, 117, 83, 116⟩, [], 3565422908⟩
      (by decide) (by decide)).1⟩

/-- C3 counterexample: when a chunk of the same type is already present,
appending and then removing that type removes the first (pre-existing)
chunk, not the appended one, so the sequence is not restored. -/
theorem c3_counterexample :
    ((c3Png.append_chunk (Chunk.new ⟨82, 117, 83, 116⟩ [1])).remove_chunk
        ['R', 'u', 'S', 't']).2.chunks ≠ c3Png.chunks := by
  decide

/-- C3 amended: appending a chunk and then removing by its type text
restores the previous sequence, provided no chunk of that type was already
present. -/
theorem c3_append_remove (p : Png) (c : Chunk) (s : List Char)
    (hs : ChunkType.from_str s = some c.chunk_type)
    (habsent : ∀ x ∈ p.chunks, x.chunk_type ≠ c.chunk_type) :
    ((p.append_chunk c).remove_chunk s).2.chunks = p.chunks := by
  have h1 : removeFirst c.chunk_type (p.chunks ++ [c]) = some p.chunks :=
    removeFirst_append_singleton habsent rfl
  simp only [Png.remove_chunk, Png.append_chunk, hs, h1]

/-- C3 witness: `c3_append_remove` on the empty container with a fresh
`"RuSt"` chunk. -/
theorem c3_append_remove_witness :
    (((⟨[]⟩ : Png).append_chunk (Chunk.new ⟨82, 117, 83, 116⟩ [1])).remove_chunk
        ['R', 'u', 'S', 't']).2.chunks = (⟨[]⟩ : Png).chunks :=
  c3_append_remove ⟨[]⟩ (Chunk.new ⟨82, 117, 83, 116⟩ [1]) ['R', 'u', 'S', 't']
    (by decide) (by simp)

/-- C8: removing a type text that parses to a `ChunkType` absent from the
container fails with `NotFound` and leaves the container unchanged. -/
theorem c8_remove_absent (p : Png) (s : List Char) (t : ChunkType)
    (hs : ChunkType.from_str s = some t)
    (habsent : ∀ x ∈ p.chunks, x.chunk_type ≠ t) :
    p.remove_chunk s = (.error .notFound, p) := by
  simp only [Png.remove_chunk, hs, removeFirst_eq_none habsent]

/-- C8 witness: `c8_remove_absent` on `c3Png` (which holds only a `"RuSt"`
chunk) with the absent type text `"ruSt"`. -/
theorem c8_remove_absent_witness :
    c3Png.remove_chunk ['r', 'u', 'S', 't'] = (.error .notFound, c3Png) :=
  c8_remove_absent c3Png ['r', 'u', 'S', 't'] ⟨114, 117, 83, 116⟩
    (by decide) (by decide)

/-- C10: if the first `12 + L` bytes of a buffer form a valid chunk record
with declared length `L`, decoding succeeds and returns the chunk
determined by those bytes alone; trailing bytes are ignored and do not
affect the result. -/
theorem c10_trailing_ignored (pre suf : List Nat) (c : Chunk)
    (hbytes : ∀ x ∈ pre, x < 256)
    (hlen : pre.length = 12 + c.length)
    (h : Chunk.decode pre = .ok c) :
    Chunk.decode (pre ++ suf) = .ok c := by
  obtain ⟨hle, hdl, hcrc, hA0, hA1, hA2, hA3, hLlt, hKlt, hrec⟩ :=
    decode_ok_inversion hbytes h
  have hdropnil : pre.drop (12 + c.length) = [] :=
    List.drop_eq_nil_of_le (by omega)
  rw [hdropnil, List.append_nil] at hrec
  have hrec' : pre = u32ToBe c.data.length ++
      [c.chunk_type.b0, c.chunk_type.b1, c.chunk_type.b2, c.chunk_type.b3] ++
      c.data ++ u32ToBe c.crc := by
    rw [hdl]
    exact hrec
  rw [hrec']
  rw [decode_record c.chunk_type.b0 c.chunk_type.b1 c.chunk_type.b2 c.chunk_type.b3
    c.data c.crc suf hA0 hA1 hA2 hA3 (hdl ▸ hLlt) hKlt]
  rw [if_pos (show c.crc = crc32 ([c.chunk_type.b0, c.chunk_type.b1,
    c.chunk_type.b2, c.chunk_type.b3] ++ c.data) from hcrc), hdl]

/-- C10 witness: `c10_trailing_ignored` on the exact-size record `c4Buf`
with trailing byte `7`. -/
theorem c10_trailing_ignored_witness :
    Chunk.decode (c4Buf ++ [7]) =
      .ok ⟨0, ⟨82, 117, 83, 116⟩, [], 3565422908⟩ :=
  c10_trailing_ignored c4Buf [7] ⟨0, ⟨82, 117, 83, 116⟩, [], 3565422908⟩
    (by decide) (by decide) (by decide)

/-! ## Supporting lemmas: UTF-8 strings, and claim C6 -/

theorem alpha_byte_lt_128 {b : Nat} (h : isAsciiAlphabetic b = true) : b < 128 := by
  unfold isAsciiAlphabetic isAsciiUppercase isAsciiLowercase at h
  simp only [Bool.or_eq_true, Bool.and_eq_true, decide_eq_true_eq] at h
  omega

theorem utf8_ascii {c : Char} (h : c.toNat < 128) : utf8EncodeChar c = [c.toNat] := by
  simp only [utf8EncodeChar]
  rw [if_pos h]

theorem utf8_ne_nil (c : Char) : utf8EncodeChar c ≠ [] := by
  simp only [utf8EncodeChar]
  split
  · simp
  · split
    · simp
    · split <;> simp

theorem utf8_nonascii {c : Char} (h : ¬ c.toNat < 128) :
    ∀ b ∈ utf8EncodeChar c, 128 ≤ b := by
  intro b hb
  simp only [utf8EncodeChar] at hb
  rw [if_neg h] at hb
  split at hb
  · simp only [List.mem_cons, List.not_mem_nil, or_false] at hb
    rcases hb with rfl | rfl <;> omega
  · split at hb
    · simp only [List.mem_cons, List.not_mem_nil, or_false] at hb
      rcases hb with rfl | rfl | rfl <;> omega
    · simp only [List.mem_cons, List.not_mem_nil, or_false] at hb
      rcases hb with rfl | rfl | rfl | rfl <;> omega

theorem strBytes_ascii {s : List Char} (h : ∀ ch ∈ s, ch.toNat < 128) :
    strBytes s = s.map Char.toNat := by
  induction s with
  | nil => rfl
  | cons a t ih =>
    simp only [strBytes, List.map_cons, List.flatten_cons] at *
    rw [utf8_ascii (h a (by simp)), ih (fun ch hch => h ch (by simp [hch]))]
    rfl

theorem from_str_eq_tryFromList {s : List Char}
    (hall : (strBytes s).all isAsciiAlphabetic = true) :
    ChunkType.from_str s = ChunkType.tryFromList (strBytes s) := by
  unfold ChunkType.from_str
  rw [if_pos hall]
  rcases hbs : strBytes s with _ | ⟨a, _ | ⟨b, _ | ⟨c, _ | ⟨d, _ | ⟨e, r⟩⟩⟩⟩⟩ <;>
    simp only [ChunkType.tryFromList]
  rw [hbs] at hall
  simp only [List.all_cons, List.all_nil, Bool.and_true, Bool.and_eq_true] at hall
  unfold ChunkType.tryFrom
  rw [if_pos (by simp [hall.1, hall.2.1, hall.2.2.1, hall.2.2.2])]

/-- C6. -/
theorem c6_from_str_iff (s : List Char) :
    (∃ t, ChunkType.from_str s = some t) ↔
      (s.length = 4 ∧ ∀ ch ∈ s, isAsciiAlphabetic ch.toNat = true) := by
  constructor
  · rintro ⟨t, ht⟩
    simp only [ChunkType.from_str] at ht
    split at ht
    · rename_i hall
      have hascii : ∀ ch ∈ s, ch.toNat < 128 := by
        intro ch hch
        by_contra hge
        obtain ⟨b, hb⟩ := List.exists_mem_of_ne_nil _ (utf8_ne_nil ch)
        have hb128 := utf8_nonascii hge b hb
        have hbmem : b ∈ strBytes s := by
          unfold strBytes
          exact List.mem_flatten.mpr ⟨utf8EncodeChar ch, List.mem_map_of_mem _ hch, hb⟩
        have halpha := List.all_eq_true.mp hall b hbmem
        have := alpha_byte_lt_128 halpha
        omega
      have hmap := strBytes_ascii hascii
      have ht' : ChunkType.tryFromList (strBytes s) = some t := by
        rw [← from_str_eq_tryFromList hall]
        simp only [ChunkType.from_str]
        rw [if_pos hall]
        exact ht
      obtain ⟨hbeq, -, -, -, -⟩ := tryFromList_eq_some ht'
      refine ⟨?_, fun ch hch => ?_⟩
      · have h4 : (s.map Char.toNat).length = 4 := by
          rw [← hmap, hbeq]
          rfl
        simpa using h4
      · refine List.all_eq_true.mp hall _ ?_
        rw [hmap]
        exact List.mem_map_of_mem _ hch
    · exact absurd ht (by simp)
  · rintro ⟨hlen, hall⟩
    have hascii : ∀ ch ∈ s, ch.toNat < 128 :=
      fun ch hch => alpha_byte_lt_128 (hall ch hch)
    have hmap := strBytes_ascii hascii
    match s, hlen, hall, hmap with
    | [c1, c2, c3, c4], _, hall, hmap =>
      refine ⟨⟨c1.toNat, c2.toNat, c3.toNat, c4.toNat⟩, ?_⟩
      simp only [ChunkType.from_str]
      rw [hmap]
      rw [if_pos (by
        refine List.all_eq_true.mpr (fun b hbm => ?_)
        obtain ⟨ch, hch, rfl⟩ := List.mem_map.mp hbm
        exact hall ch hch)]
      simp only [List.map_cons, List.map_nil]

/-- C6 witness. -/
theorem c6_from_str_iff_witness :
    ∃ t, ChunkType.from_str ['R', 'u', 'S', 't'] = some t :=
  (c6_from_str_iff ['R', 'u', 'S', 't']).mpr ⟨rfl, by decide⟩

/-! ## Claim C4: CRC sensitivity to single-bit flips -/

theorem append5_group (A B S C E : List Nat) :
    A ++ B ++ S ++ C ++ E = A ++ ((B ++ S) ++ (C ++ E)) := by
  simp [List.append_assoc]

theorem decode_record_mismatch (T : List Nat) (data : List Nat) (K : Nat)
    (trail : List Nat)
    (hT : T.length = 4) (halpha : ∀ x ∈ T, isAsciiAlphabetic x = true)
    (hL : data.length < 2 ^ 32) (hK : K < 2 ^ 32)
    (hne : K ≠ crc32 (T ++ data)) :
    Chunk.decode (u32ToBe data.length ++ T ++ data ++ u32ToBe K ++ trail) =
      .err .invalidCrc := by
  match T, hT with
  | [a, b, c, d], _ =>
    rw [decode_record a b c d data K trail (halpha a (by simp)) (halpha b (by simp))
      (halpha c (by simp)) (halpha d (by simp)) hL hK]
    exact if_neg hne

/-- C4 amended: for every buffer that decodes successfully, flipping any
single bit of a payload byte, or of a type byte provided the flipped byte
stays ASCII-alphabetic, makes decoding the modified buffer fail with the
CRC `IntegrityError`; a type-byte flip that leaves the alphabet fails
earlier, with `InvalidFormat` (see the counterexample). -/
theorem c4_crc_sensitivity (buf : List Nat) (c : Chunk) (p j : Nat)
    (hbytes : ∀ x ∈ buf, x < 256) (h : Chunk.decode buf = .ok c)
    (hp4 : 4 ≤ p) (hp : p < 8 + c.length) (hj : j < 8)
    (htype : p < 8 → isAsciiAlphabetic (buf.getD p 0 ^^^ 2 ^ j) = true) :
    Chunk.decode (buf.set p (buf.getD p 0 ^^^ 2 ^ j)) = .err .invalidCrc := by
  obtain ⟨hle, hdl, hcrc, hA0, hA1, hA2, hA3, hLlt, hKlt, hrec⟩ :=
    decode_ok_inversion hbytes h
  set BE := u32ToBe c.length with hBE
  set T := c.chunk_type.bytes with hT
  set D := c.data with hD
  set KB := u32ToBe c.crc with hKB
  set R := buf.drop (12 + c.length) with hR
  set q := p - 4 with hq
  set m : List Nat := T ++ D with hm
  have hTlen : T.length = 4 := rfl
  have hBElen : BE.length = 4 := rfl
  have hmlen : m.length = 4 + c.length := by
    rw [hm, List.length_append, hTlen, hD, hdl]
  have hqm : q < m.length := by omega
  have hgrp : buf = BE ++ (m ++ (KB ++ R)) := by
    rw [hrec, append5_group]
  have hget : buf.getD p 0 = m.getD q 0 := by
    rw [hgrp]
    rw [List.getD_eq_getElem?_getD, List.getD_eq_getElem?_getD]
    rw [List.getElem?_append_right (by rw [hBElen]; omega : BE.length ≤ p)]
    rw [List.getElem?_append_left (by rw [hBElen]; omega : p - BE.length < m.length)]
    rw [hBElen]
  have hgetq : m.getD q 0 = m[q] := by
    rw [List.getD_eq_getElem?_getD, List.getElem?_eq_getElem hqm]
    rfl
  set v : Nat := buf.getD p 0 ^^^ 2 ^ j with hv
  have hvm : v = m[q] ^^^ 2 ^ j := by
    rw [hv, hget, hgetq]
  set m2 : List Nat := m.set q v with hm2
  have hset : buf.set p v = BE ++ (m2 ++ (KB ++ R)) := by
    rw [hgrp, List.set_append_right _ _ (by rw [hBElen]; omega : BE.length ≤ p),
      List.set_append_left _ _ (by rw [hBElen]; omega : p - BE.length < m.length)]
    rw [hBElen]
  have hm2len : m2.length = m.length := by rw [hm2, List.length_set]
  have hsplitm2 : m2.take 4 ++ m2.drop 4 = m2 := List.take_append_drop 4 m2
  have hD2len : (m2.drop 4).length = c.length := by
    rw [List.length_drop, hm2len, hmlen]
    omega
  have hT2len : (m2.take 4).length = 4 := by
    rw [List.length_take, hm2len, hmlen]
    omega
  have halphaT : ∀ x ∈ T, isAsciiAlphabetic x = true := by
    intro x hx
    rw [hT] at hx
    simp only [ChunkType.bytes, List.mem_cons, List.not_mem_nil, or_false] at hx
    rcases hx with rfl | rfl | rfl | rfl
    exacts [hA0, hA1, hA2, hA3]
  have halpha2 : ∀ x ∈ m2.take 4, isAsciiAlphabetic x = true := by
    rcases Nat.lt_or_ge q 4 with hq4 | hq4
    · have hxv : isAsciiAlphabetic v = true := htype (by omega)
      have hmq : m2 = T.set q v ++ D := by
        rw [hm2, hm, List.set_append_left _ _ (by rw [hTlen]; omega : q < T.length)]
      have htake : m2.take 4 = T.set q v := by
        rw [hmq]
        exact List.take_left' (by rw [List.length_set, hTlen])
      rw [htake]
      intro x hx
      obtain ⟨i, hi, hix⟩ := List.mem_iff_getElem.mp hx
      rw [List.getElem_set] at hix
      by_cases hiq : q = i
      · rw [if_pos hiq] at hix
        exact hix ▸ hxv
      · rw [if_neg hiq] at hix
        exact hix ▸ halphaT _ (List.getElem_mem _)
    · have hmq : m2 = T ++ D.set (q - 4) v := by
        rw [hm2, hm, List.set_append_right _ _ (by rw [hTlen]; omega : T.length ≤ q), hTlen]
      have htake : m2.take 4 = T := by
        rw [hmq]
        exact List.take_left' hTlen
      rw [htake]
      exact halphaT
  have hmm : m = m.take q ++ m[q] :: m.drop (q + 1) := by
    conv_lhs => rw [← List.take_append_drop q m, List.drop_eq_getElem_cons hqm]
  have hm2eq : m2 = m.take q ++ (m[q] ^^^ 2 ^ j) :: m.drop (q + 1) := by
    rw [hm2, hvm]
    exact List.set_eq_take_cons_drop _ hqm
  have hpowne : (2 : Nat) ^ j ≠ 0 := Nat.pos_iff_ne_zero.mp (Nat.pos_pow_of_pos j (by omega))
  have hpowlt : (2 : Nat) ^ j < 2 ^ 32 :=
    Nat.lt_of_lt_of_le (Nat.pow_lt_pow_right (by omega) hj) (by norm_num)
  have hne : c.crc ≠ crc32 (m2.take 4 ++ m2.drop 4) := by
    rw [hsplitm2, hm2eq, hcrc]
    conv_lhs => rw [hmm]
    exact crc32_flip_ne _ _ _ _ hpowne hpowlt
  have hfin : u32ToBe (m2.drop 4).length ++ m2.take 4 ++ m2.drop 4 ++ u32ToBe c.crc ++ R =
      BE ++ (m2 ++ (KB ++ R)) := by
    rw [append5_group, hsplitm2, hD2len]
  rw [hset, ← hfin]
  exact decode_record_mismatch (m2.take 4) (m2.drop 4) c.crc R hT2len halpha2
    (by rw [hD2len]; exact hLlt) hKlt hne

/-- C4 counterexample: flipping bit 7 of the first type byte of a valid
chunk buffer (`82` becomes `210`, which is not alphabetic) makes decoding
fail with the `ChunkType` construction error, not with the CRC
`IntegrityError` the claim requires. -/
theorem c4_type_flip_counterexample :
    Chunk.decode c4Buf = .ok ⟨0, ⟨82, 117, 83, 116⟩, [], 3565422908⟩ ∧
    Chunk.decode (c4Buf.set 4 (c4Buf.getD 4 0 ^^^ 2 ^ 7)) =
      .err .invalidChunkType := by
  decide

/-- C4 witness: `c4_crc_sensitivity` on `c4Buf`, flipping bit 5 of the
first type byte (`R` becomes `r`, still alphabetic). -/
theorem c4_crc_sensitivity_witness :
    Chunk.decode (c4Buf.set 4 (c4Buf.getD 4 0 ^^^ 2 ^ 5)) = .err .invalidCrc :=
  c4_crc_sensitivity c4Buf ⟨0, ⟨82, 117, 83, 116⟩, [], 3565422908⟩ 4 5
    (by decide) (by decide) (by decide) (by decide) (by decide) (fun _ => by decide)

end Pngme
